import Mathlib

/-!
Verification of the IPCounter repository: the disk-partitioned two-pass
bucket engine (`bucket/bitbucket.go`) and the concurrent sharded-bitset
engine (`concurrent/concurrent.go`), over a shallow embedding in which a
file is a `List Nat` of byte values (each 0..255) and machine integers
are `Nat` (the Go code only ever holds values below `2^32` in its
`uint32`s, which the development proves where it matters).
-/

/-! ### Bytes, whitespace trimming, and line splitting -/

/-- A byte is ASCII whitespace (the bytes `bytes.TrimSpace` strips for
ASCII input: space, tab, newline, carriage return, vertical tab, form feed). -/
def isSpaceByte (b : Nat) : Bool := decide (b = 32 ∨ b = 9 ∨ b = 10 ∨ b = 13 ∨ b = 11 ∨ b = 12)

/-- `bytes.TrimSpace` on ASCII input: drop leading and trailing whitespace bytes. -/
def trimSpace (l : List Nat) : List Nat :=
  ((l.dropWhile isSpaceByte).reverse.dropWhile isSpaceByte).reverse

/-- Newline-splitting as both engines perform it: `segsAux acc rest` emits the
bytes since the last newline at each `'\n'` (byte 10), and emits the trailing
partial line only when it is nonempty.  This is the line decomposition of the
`ReadBytes('\n')` loop of `bucket.CountUniqueIPs` (whose final empty read at
EOF is skipped there by the `len(line) != 0` check) and of the
`for i, c := range chunk` loop of `concurrent.processChunk`. -/
def segsAux (acc : List Nat) : List Nat → List (List Nat)
  | [] => if acc = [] then [] else [acc]
  | b :: bs => if b = 10 then acc :: segsAux [] bs else segsAux (acc ++ [b]) bs

/-- The newline-separated segments of a byte sequence. -/
def segs (l : List Nat) : List (List Nat) := segsAux [] l

/-! ### Address Codec -/

/-- An ASCII decimal digit byte. -/
def isDigitByte (b : Nat) : Bool := decide (48 ≤ b ∧ b ≤ 57)

/-- Decimal value of a digit-byte sequence. -/
def digitsValue (seg : List Nat) : Nat := seg.foldl (fun a b => a * 10 + (b - 48)) 0

/-- Modelled from the spec: one octet of the Address Codec
(`utils.ParseIPv4`, whose source file is not part of the repository
snapshot): a nonempty run of decimal digit bytes whose value is at most
255; anything else is a parse failure. -/
def octetValue (seg : List Nat) : Option Nat :=
  if seg.length ≠ 0 ∧ seg.all isDigitByte = true then
    if digitsValue seg ≤ 255 then some (digitsValue seg) else none
  else none

/-- Modelled from the spec: the Address Codec `utils.ParseIPv4` (its source
file is not part of the repository snapshot).  Per spec section 4.1: exactly
four dot-separated decimal octets, each an integer 0-255, with no extraneous
characters; any deviation (wrong segment count, out-of-range octet, non-digit
characters, empty segments) is a parse failure.  The result is the 32-bit
address with the first octet most significant. -/
def parseIPv4 (line : List Nat) : Option Nat :=
  match line.splitOn 46 with
  | [a, b, c, d] =>
    match octetValue a, octetValue b, octetValue c, octetValue d with
    | some x, some y, some z, some w => some (((x * 256 + y) * 256 + z) * 256 + w)
    | _, _, _, _ => none
  | _ => none

/-- The address contributed by one raw line segment: trim it, skip it when
empty, otherwise parse it (parse failures contribute nothing).  This is the
shared per-line logic of both engines. -/
def addrOfLine (seg : List Nat) : Option Nat :=
  let line := trimSpace seg
  if line.length = 0 then none else parseIPv4 line

/-- The sequence of successfully parsed addresses of a file's lines, in order. -/
def addrs (input : List Nat) : List Nat := (segs input).filterMap addrOfLine

/-! ### Big-endian 4-byte records (`encoding/binary.BigEndian`) -/

/-- `binary.BigEndian.PutUint32`: the four bytes of `v`, most significant first. -/
def putUint32BE (v : Nat) : List Nat :=
  [(v >>> 24) &&& 255, (v >>> 16) &&& 255, (v >>> 8) &&& 255, v &&& 255]

/-- `binary.BigEndian.Uint32` on four bytes. -/
def beUint32 (b0 b1 b2 b3 : Nat) : Nat :=
  (b0 <<< 24) ||| (b1 <<< 16) ||| (b2 <<< 8) ||| b3

/-- The `io.ReadFull(rr, buf[:4])` loop of pass 2: decode consecutive 4-byte
big-endian records; a trailing group of fewer than 4 bytes ends the stream
(`io.EOF` / `io.ErrUnexpectedEOF` both break the loop). -/
def readRecords : List Nat → List Nat
  | b0 :: b1 :: b2 :: b3 :: rest => beUint32 b0 b1 b2 b3 :: readRecords rest
  | _ => []

/-! ### Generic word-array test-and-set fold

Both engines mark addresses in an array of 32-bit words: word index
`wordOf v`, mask `1 <<< bitOf v`; a value is "new" exactly when its mask bit
was clear, in which case the bit is set and the count incremented.  The word
array is modelled as a total function from word keys to word values. -/

def tsFold {K : Type} [DecidableEq K] (wordOf : Nat → K) (bitOf : Nat → Nat) :
    List Nat → (K → Nat) → Nat → (K → Nat) × Nat
  | [], w, cnt => (w, cnt)
  | v :: vs, w, cnt =>
    let wi := wordOf v
    let mask := 1 <<< bitOf v
    if w wi &&& mask = 0 then
      tsFold wordOf bitOf vs (Function.update w wi (w wi ||| mask)) (cnt + 1)
    else
      tsFold wordOf bitOf vs w cnt

/-! ### Disk-partitioned bucket engine (`bucket/bitbucket.go`) -/

def numBuckets : Nat := 256

def suffixBits : Nat := 24

def wordsPerSet : Nat := ((1 <<< suffixBits) + 31) / 32

/-- The empty bucket files created at the start of pass 1. -/
def files0 : Nat → List Nat := fun _ => []

/-- Pass 1 body for one line (bitbucket.go lines 80-89): skip blank lines,
parse, and on success append the 4-byte big-endian encoding of the 24-bit
suffix `ip &&& 0x00FFFFFF` to the bucket selected by the top byte `ip >>> 24`. -/
def pass1Write (files : Nat → List Nat) (seg : List Nat) : Nat → List Nat :=
  let line := trimSpace seg
  if line.length ≠ 0 then
    match parseIPv4 line with
    | some ip =>
      let top := ip >>> 24
      let suffix := ip &&& 0xFFFFFF
      Function.update files top (files top ++ putUint32BE suffix)
    | none => files
  else files

/-- Pass 1: the bucket files after streaming the whole input line by line. -/
def pass1 (input : List Nat) : Nat → List Nat := (segs input).foldl pass1Write files0

/-- Pass 2 for one bucket file (bitbucket.go lines 106-132): a fresh bitset of
`wordsPerSet` words, then for each decoded record `suffix` test-and-set bit
`suffix &&& 31` of word `suffix >>> 5`, counting newly set bits. -/
def countBucketFile (content : List Nat) : Nat :=
  (tsFold (fun s => s >>> 5) (fun s => s &&& 31) (readRecords content) (fun _ => 0) 0).2

/-- `bucket.CountUniqueIPs` as a pure function of the input file bytes:
pass 1 then the sum over the 256 buckets of pass-2 counts. -/
def countUniqueIPsBucket (input : List Nat) : Nat :=
  ∑ i ∈ Finset.range numBuckets, countBucketFile (pass1 input i)

/-- Pass-1 writing at the level of an already-decoded address list (what the
line loop does to the bucket files for each parsed address). -/
def bucketWrite (files : Nat → List Nat) (ip : Nat) : Nat → List Nat :=
  Function.update files (ip >>> 24) (files (ip >>> 24) ++ putUint32BE (ip &&& 0xFFFFFF))

/-- The bucket files produced by a list of already-decoded addresses. -/
def bucketsOfAddrs (l : List Nat) : Nat → List Nat := l.foldl bucketWrite files0

/-- The bucket engine's count as a function of the decoded address list. -/
def bucketCountOfAddrs (l : List Nat) : Nat :=
  ∑ i ∈ Finset.range numBuckets, countBucketFile (bucketsOfAddrs l i)

/-! ### Concurrent sharded-bitset engine (`concurrent/concurrent.go`) -/

def maxIPv4 : Nat := 1 <<< 32

def numShards : Nat := 16384

def bitsPerShard : Nat := (maxIPv4 + numShards - 1) / numShards

def wordsPerShard : Nat := (bitsPerShard + 31) / 32

/-- `setBit` (concurrent.go lines 53-69): word index `offset / 32`, mask
`1 <<< (offset % 32)`; return `false` ("not new") when the bit is already
set, otherwise set it and return `true`.  The CAS retry loop always
terminates with exactly this effect on the shard's words; in the sequential
embedding the compare-and-swap succeeds at once. -/
def setBit (words : Nat → Nat) (offset : Nat) : (Nat → Nat) × Bool :=
  let wordIdx := offset / 32
  let bitIdx := offset % 32
  let mask := 1 <<< bitIdx
  let old := words wordIdx
  if old &&& mask ≠ 0 then (words, false)
  else (Function.update words wordIdx (old ||| mask), true)

/-- The all-zero shard state (every shard's words lazily start at zero). -/
def zeroShards : Nat → Nat → Nat := fun _ _ => 0

/-- One line of `processChunk`: trim, skip blank, parse, and on success
test-and-set the bit for offset `ip / numShards` in shard `ip % numShards`,
yielding 1 when the address was new. -/
def processLine (st : Nat → Nat → Nat) (seg : List Nat) : (Nat → Nat → Nat) × Nat :=
  let line := trimSpace seg
  if line.length = 0 then (st, 0)
  else
    match parseIPv4 line with
    | none => (st, 0)
    | some ip =>
      let shardIdx := ip % numShards
      let r := setBit (st shardIdx) (ip / numShards)
      (Function.update st shardIdx r.1, if r.2 then 1 else 0)

/-- Fold `processLine` over a list of line segments, accumulating the count. -/
def foldLines (st : Nat → Nat → Nat) (cnt : Nat) : List (List Nat) → (Nat → Nat → Nat) × Nat
  | [] => (st, cnt)
  | seg :: rest =>
    let r := processLine st seg
    foldLines r.1 (cnt + r.2) rest

/-- `processChunk` (concurrent.go lines 179-212): split the chunk at newlines
(trailing partial line included when nonempty) and process each line,
returning the chunk's new-address count. -/
def processChunk (st : Nat → Nat → Nat) (chunk : List Nat) : (Nat → Nat → Nat) × Nat :=
  foldLines st 0 (segs chunk)

/-- Process the emitted chunks in sequence against the shared shard state,
summing the per-chunk counts (the aggregator's total). -/
def runChunks (st : Nat → Nat → Nat) (total : Nat) : List (List Nat) → (Nat → Nat → Nat) × Nat
  | [] => (st, total)
  | c :: cs =>
    let r := processChunk st c
    runChunks r.1 (total + r.2) cs

/-- The producer loop (concurrent.go lines 115-167): each read block is cut at
its last newline; carried bytes plus everything through that newline form one
chunk, the remainder is carried forward; a block without a newline is wholly
carried; after the last block a nonempty carry is flushed as a final chunk. -/
def producer : List (List Nat) → List Nat → List (List Nat)
  | [], carry => if carry = [] then [] else [carry]
  | data :: rest, carry =>
    let tail := (data.reverse.takeWhile (fun b => b ≠ 10)).reverse
    let head := (data.reverse.dropWhile (fun b => b ≠ 10)).reverse
    if head = [] then producer rest (carry ++ data)
    else (carry ++ head) :: producer rest tail

/-- `concurrent.CountUniqueIPs` as a pure function of the reader's block
sequence (the reader hands the producer the file's bytes as an arbitrary
decomposition into blocks): the aggregator's sum over the produced chunks. -/
def countConcurrentBlocks (blocks : List (List Nat)) : Nat :=
  (runChunks zeroShards 0 (producer blocks [])).2

/-- The word key an address maps to: its shard index and in-shard word index. -/
def shardWordOf (ip : Nat) : Nat × Nat := (ip % numShards, ip / numShards / 32)

/-- The bit index an address maps to within its word. -/
def shardBitOf (ip : Nat) : Nat := ip / numShards % 32

/-! ### Disk engine error model -/

/-- One iteration of the pass-2 bucket loop of the error model
(bitbucket.go lines 98-136): once an error has occurred the loop has
returned, so it absorbs; otherwise the bucket's `os.Open` may fail
(lines 100-102, wrap "open bucket"), then an `io.ReadFull` record read may
fail with a real error (lines 120-122, wrap "read bucket"; EOF and a short
trailing record are not errors, see `readRecords`), otherwise the bucket's
count is added to the running total. -/
def pass2Step (openBucketErr readBucketErr : Nat → Bool) (files : Nat → List Nat)
    (acc : Except String Nat) (i : Nat) : Except String Nat :=
  match acc with
  | .error e => .error e
  | .ok total =>
    if openBucketErr i then .error "open bucket"
    else if readBucketErr i then .error "read bucket"
    else .ok (total + countBucketFile (files i))

/-- Pass 2 of the error model: fold the bucket loop over the 256 buckets in
order, starting from total 0; the first failing open or read aborts the
count with its wrapped error. -/
def pass2E (openBucketErr readBucketErr : Nat → Bool) (files : Nat → List Nat) :
    Except String Nat :=
  (List.range numBuckets).foldl (pass2Step openBucketErr readBucketErr files) (.ok 0)

/-- `bucket.CountUniqueIPs` with its fallible file operations made explicit.
The checked operations of the source are oracles here: `os.MkdirTemp`
(line 28), the 256 `os.Create` calls (line 37), `os.Open` of the input
(line 59), the `ReadBytes` input-read loop (a non-EOF read error at lines
70-73 aborts with wrap "read", whatever was already partitioned), and in
pass 2, per bucket in order, `os.Open` and the record reads (see
`pass2Step`); when one fails the source returns a wrapped error, modelled
as `Except.error` with the wrap text.  The source DISCARDS the error
results of `writers[top].Write` (line 87) and of `Flush` inside
`flushClose` (line 49), so no write/flush oracle appears in any error
branch: a failed flush of bucket `i` (`flushFails i`) only truncates that
bucket's durable bytes to the prefix the underlying file had received
(`durable i`), and the count proceeds. -/
def countUniqueIPsBucketE (mkdirErr : Bool) (createErr : Nat → Bool) (openInputErr : Bool)
    (readInputErr : Bool) (openBucketErr : Nat → Bool) (readBucketErr : Nat → Bool)
    (flushFails : Nat → Bool) (durable : Nat → Nat)
    (input : List Nat) : Except String Nat :=
  if mkdirErr then .error "mkdtemp"
  else if (List.range numBuckets).any createErr then .error "create bucket"
  else if openInputErr then .error "open input"
  else if readInputErr then .error "read"
  else
    let files := pass1 input
    let files' := fun i => if flushFails i then (files i).take (durable i) else files i
    pass2E openBucketErr readBucketErr files'

/-- A sample shard word array with bit 3 of every word set. -/
def sampleWords : Nat → Nat := fun _ => 8

/-- Sample file whose lines are all blank or malformed. -/
def c9SampleBlock : List Nat :=
  [97, 98, 99, 10, 32, 10, 57, 57, 57, 46, 57, 57, 57, 46, 57, 57, 57, 46, 57, 57, 57]

/-- Sample file holding the single line 1.2.3.4. -/
def c10Sample : List Nat := [49, 46, 50, 46, 51, 46, 52, 10]
/-! ### Arithmetic helper lemmas -/

/-- Bitwise or of a multiple of `2^i` with a value below `2^i` is addition. -/
theorem or_eq_add {i : Nat} (a b : Nat) (hb : b < 2 ^ i) (ha : ∃ c, a = 2 ^ i * c) :
    a ||| b = a + b := by
  obtain ⟨c, rfl⟩ := ha
  exact (Nat.mul_add_lt_is_or hb c).symm

/-- The test-and-set mask condition in terms of `Nat.testBit`. -/
theorem and_mask_eq_zero (n b : Nat) : n &&& 1 <<< b = 0 ↔ n.testBit b = false := by
  rw [Nat.shiftLeft_eq, one_mul, Nat.and_two_pow]
  cases h : n.testBit b <;> simp

theorem and_31_eq (s : Nat) : s &&& 31 = s % 32 := by
  have h := Nat.and_pow_two_sub_one_eq_mod s 5
  norm_num at h
  exact h

theorem shiftRight_5_eq (s : Nat) : s >>> 5 = s / 32 := by
  rw [Nat.shiftRight_eq_div_pow]

theorem and_mask24_eq (s : Nat) : s &&& 0xFFFFFF = s % 2 ^ 24 := by
  have h := Nat.and_pow_two_sub_one_eq_mod s 24
  norm_num at h ⊢
  exact h

theorem shiftRight_24_eq (s : Nat) : s >>> 24 = s / 2 ^ 24 := by
  rw [Nat.shiftRight_eq_div_pow]

/-- Decoding four bytes, each below 256, gives their base-256 value. -/
theorem beUint32_bytes (b0 b1 b2 b3 : Nat) (h0 : b0 < 256) (h1 : b1 < 256)
    (h2 : b2 < 256) (h3 : b3 < 256) :
    beUint32 b0 b1 b2 b3 = ((b0 * 256 + b1) * 256 + b2) * 256 + b3 := by
  unfold beUint32
  rw [Nat.shiftLeft_eq, Nat.shiftLeft_eq, Nat.shiftLeft_eq]
  have e1 : b0 * 2 ^ 24 ||| b1 * 2 ^ 16 = b0 * 2 ^ 24 + b1 * 2 ^ 16 :=
    or_eq_add (i := 24) _ _ (by omega) ⟨b0, by ring⟩
  have e2 : b0 * 2 ^ 24 + b1 * 2 ^ 16 ||| b2 * 2 ^ 8 =
      b0 * 2 ^ 24 + b1 * 2 ^ 16 + b2 * 2 ^ 8 :=
    or_eq_add (i := 16) _ _ (by omega) ⟨2 ^ 8 * b0 + b1, by ring⟩
  have e3 : b0 * 2 ^ 24 + b1 * 2 ^ 16 + b2 * 2 ^ 8 ||| b3 =
      b0 * 2 ^ 24 + b1 * 2 ^ 16 + b2 * 2 ^ 8 + b3 :=
    or_eq_add (i := 8) _ _ (by omega) ⟨2 ^ 16 * b0 + 2 ^ 8 * b1 + b2, by ring⟩
  rw [e1, e2, e3]
  ring

/-- Big-endian round trip: decoding the 4 bytes written for `v < 2^32` gives `v`. -/
theorem beUint32_putUint32BE (v : Nat) (hv : v < 2 ^ 32) :
    beUint32 ((v >>> 24) &&& 255) ((v >>> 16) &&& 255) ((v >>> 8) &&& 255) (v &&& 255) = v := by
  have h255 : ∀ s : Nat, s &&& 255 = s % 2 ^ 8 := by
    intro s
    have h := Nat.and_pow_two_sub_one_eq_mod s 8
    norm_num at h ⊢
    exact h
  simp only [h255, Nat.shiftRight_eq_div_pow]
  rw [beUint32_bytes _ _ _ _ (by omega) (by omega) (by omega) (by omega)]
  omega

/-- Decoding a written record and continuing: pass 2 reads back exactly the
values pass 1 wrote. -/
theorem readRecords_put (v : Nat) (hv : v < 2 ^ 32) (rest : List Nat) :
    readRecords (putUint32BE v ++ rest) = v :: readRecords rest := by
  have h := beUint32_putUint32BE v hv
  simp [putUint32BE, readRecords, h]

/-! ### Address Codec bounds -/

theorem octetValue_le {seg : List Nat} {v : Nat} (h : octetValue seg = some v) : v ≤ 255 := by
  unfold octetValue at h
  split at h
  · split at h
    · injection h with h
      omega
    · exact absurd h (by simp)
  · exact absurd h (by simp)

/-- Every successfully parsed address fits in 32 bits. -/
theorem parseIPv4_lt {line : List Nat} {ip : Nat} (h : parseIPv4 line = some ip) :
    ip < 2 ^ 32 := by
  unfold parseIPv4 at h
  split at h
  · split at h
    · rename_i x y z w hx hy hz hw
      injection h with h
      have := octetValue_le hx
      have := octetValue_le hy
      have := octetValue_le hz
      have := octetValue_le hw
      omega
    · exact absurd h (by simp)
  · exact absurd h (by simp)

theorem addrOfLine_parse {seg : List Nat} {ip : Nat} (h : addrOfLine seg = some ip) :
    parseIPv4 (trimSpace seg) = some ip := by
  by_cases h0 : (trimSpace seg).length = 0
  · simp [addrOfLine, h0] at h
  · simpa [addrOfLine, h0] using h

theorem addrs_lt {input : List Nat} {ip : Nat} (h : ip ∈ addrs input) : ip < 2 ^ 32 := by
  obtain ⟨seg, -, hseg⟩ := List.mem_filterMap.mp h
  exact parseIPv4_lt (addrOfLine_parse hseg)
/-! ### The generic test-and-set fold counts distinct values -/

theorem tsFold_count {K : Type} [DecidableEq K] (wordOf : Nat → K) (bitOf : Nat → Nat)
    (hinj : ∀ a b, wordOf a = wordOf b → bitOf a = bitOf b → a = b) :
    ∀ (vs : List Nat) (S : Finset Nat) (w : K → Nat) (cnt : Nat),
      (∀ k i, (w k).testBit i = true ↔ ∃ v ∈ S, wordOf v = k ∧ bitOf v = i) →
      (tsFold wordOf bitOf vs w cnt).2 = cnt + (vs.toFinset \ S).card := by
  intro vs
  induction vs with
  | nil => intro S w cnt hw; simp [tsFold]
  | cons v vs ih =>
    intro S w cnt hw
    by_cases hc : w (wordOf v) &&& 1 <<< bitOf v = 0
    · -- the bit is clear: v is new, set it and count it
      have hbit : (w (wordOf v)).testBit (bitOf v) = false := (and_mask_eq_zero _ _).mp hc
      have hvS : v ∉ S := by
        intro hv
        have : (w (wordOf v)).testBit (bitOf v) = true :=
          (hw _ _).mpr ⟨v, hv, rfl, rfl⟩
        simp [hbit] at this
      have hw' : ∀ k i,
          ((Function.update w (wordOf v) (w (wordOf v) ||| 1 <<< bitOf v)) k).testBit i = true ↔
            ∃ v' ∈ insert v S, wordOf v' = k ∧ bitOf v' = i := by
        intro k i
        by_cases hk : k = wordOf v
        · subst hk
          rw [Function.update_same, Nat.testBit_or, Nat.shiftLeft_eq, one_mul,
            Nat.testBit_two_pow]
          constructor
          · intro h
            rcases Bool.or_eq_true_iff.mp h with h | h
            · obtain ⟨v', hv', hkv', hbv'⟩ := (hw _ _).mp h
              exact ⟨v', Finset.mem_insert_of_mem hv', hkv', hbv'⟩
            · exact ⟨v, Finset.mem_insert_self _ _, rfl, of_decide_eq_true h⟩
          · rintro ⟨v', hv', hkv', hbv'⟩
            rcases Finset.mem_insert.mp hv' with rfl | hmem
            · subst hbv'
              simp
            · rw [(hw _ _).mpr ⟨v', hmem, hkv', hbv'⟩]
              simp
        · rw [Function.update_noteq hk]
          rw [hw k i]
          constructor
          · rintro ⟨v', hv', rfl, rfl⟩
            exact ⟨v', Finset.mem_insert_of_mem hv', rfl, rfl⟩
          · rintro ⟨v', hv', rfl, rfl⟩
            rcases Finset.mem_insert.mp hv' with rfl | hv'
            · exact absurd rfl hk
            · exact ⟨v', hv', rfl, rfl⟩
      have hrec := ih (insert v S) _ (cnt + 1) hw'
      have hstep : tsFold wordOf bitOf (v :: vs) w cnt =
          tsFold wordOf bitOf vs
            (Function.update w (wordOf v) (w (wordOf v) ||| 1 <<< bitOf v)) (cnt + 1) := by
        simp only [tsFold]
        rw [if_pos hc]
      rw [hstep, hrec]
      have hcard : (vs.toFinset \ insert v S).card + 1 = ((v :: vs).toFinset \ S).card := by
        rw [List.toFinset_cons, Finset.insert_sdiff_of_not_mem _ hvS,
          Finset.sdiff_insert]
        by_cases hvT : v ∈ vs.toFinset \ S
        · rw [Finset.card_erase_of_mem hvT, Finset.card_insert_of_mem hvT]
          have : 0 < (vs.toFinset \ S).card := Finset.card_pos.mpr ⟨v, hvT⟩
          omega
        · rw [Finset.erase_eq_of_not_mem hvT, Finset.card_insert_of_not_mem hvT]
      omega
    · -- the bit is already set: v was seen, skip it
      have hbit : (w (wordOf v)).testBit (bitOf v) = true := by
        rcases h : (w (wordOf v)).testBit (bitOf v) with _ | _
        · exact absurd ((and_mask_eq_zero _ _).mpr h) hc
        · rfl
      obtain ⟨v', hv', hkv', hbv'⟩ := (hw _ _).mp hbit
      have hveq : v' = v := hinj v' v hkv' hbv'
      have hvmem : v ∈ S := hveq ▸ hv'
      have hstep : tsFold wordOf bitOf (v :: vs) w cnt = tsFold wordOf bitOf vs w cnt := by
        simp only [tsFold]
        rw [if_neg hc]
      rw [hstep, ih S w cnt hw]
      have : (v :: vs).toFinset \ S = vs.toFinset \ S := by
        rw [List.toFinset_cons, Finset.insert_sdiff_of_mem _ hvmem]
      rw [this]

/-- Starting from the all-zero word array with count 0, the fold returns the
number of distinct values in the list. -/
theorem tsFold_card {K : Type} [DecidableEq K] (wordOf : Nat → K) (bitOf : Nat → Nat)
    (hinj : ∀ a b, wordOf a = wordOf b → bitOf a = bitOf b → a = b) (vs : List Nat) :
    (tsFold wordOf bitOf vs (fun _ => 0) 0).2 = vs.toFinset.card := by
  have h := tsFold_count wordOf bitOf hinj vs ∅ (fun _ => 0) 0 (by simp)
  simpa using h
/-! ### Line-splitting lemmas -/

/-- Splitting distributes over a newline: everything through a newline forms
the initial segments, the rest is split independently. -/
theorem segsAux_append_newline (v : List Nat) :
    ∀ (u : List Nat) (acc : List Nat),
      segsAux acc (u ++ 10 :: v) = segsAux acc (u ++ [10]) ++ segsAux [] v := by
  intro u
  induction u with
  | nil => intro acc; simp [segsAux]
  | cons b u ih =>
    intro acc
    by_cases hb : b = 10
    · subst hb
      simp [segsAux, ih]
    · simp [segsAux, hb, ih]

/-- A newline-free byte sequence is one segment (or none when empty). -/
theorem segsAux_no_newline :
    ∀ (xs acc : List Nat), 10 ∉ xs →
      segsAux acc xs = if acc ++ xs = [] then [] else [acc ++ xs] := by
  intro xs
  induction xs with
  | nil => intro acc _; simp [segsAux]
  | cons b bs ih =>
    intro acc hmem
    have hb : b ≠ 10 := fun h => hmem (h ▸ List.mem_cons_self b bs)
    have hbs : 10 ∉ bs := fun h => hmem (List.mem_cons_of_mem _ h)
    simp only [segsAux, if_neg hb]
    rw [ih _ hbs]
    simp

/-! ### Producer lemmas -/

/-- If `dropWhile` yields a cons, its head fails the predicate. -/
theorem dropWhile_head_false {p : Nat → Bool} :
    ∀ (l : List Nat) (y : Nat) (ys : List Nat), l.dropWhile p = y :: ys → p y = false := by
  intro l
  induction l with
  | nil => intro y ys h; simp [List.dropWhile] at h
  | cons a as ih =>
    intro y ys h
    by_cases ha : p a
    · rw [List.dropWhile_cons_of_pos ha] at h
      exact ih y ys h
    · rw [List.dropWhile_cons_of_neg ha] at h
      cases h
      exact Bool.of_not_eq_true ha

/-- The chunks emitted by the producer concatenate to the carried bytes
followed by all block bytes: no byte is lost or duplicated. -/
theorem producer_flatten :
    ∀ (blocks : List (List Nat)) (carry : List Nat),
      (producer blocks carry).flatten = carry ++ blocks.flatten := by
  intro blocks
  induction blocks with
  | nil =>
    intro carry
    by_cases hc : carry = []
    · simp [producer, hc]
    · simp [producer, hc]
  | cons data rest ih =>
    intro carry
    simp only [producer]
    by_cases hh : (data.reverse.dropWhile (fun b => b ≠ 10)).reverse = []
    · rw [if_pos hh, ih]
      have hdata : (data.reverse.takeWhile (fun b => b ≠ 10)).reverse = data := by
        have : data.reverse.dropWhile (fun b => b ≠ 10) = [] := by
          have := congrArg List.reverse hh
          simpa using this
        have htk := List.takeWhile_append_dropWhile (l := data.reverse) (p := fun b => b ≠ 10)
        rw [this, List.append_nil] at htk
        rw [htk]
        simp
      rw [← hdata]  -- not needed if we rewrite the takeWhile part directly
      simp [hdata]
    · rw [if_neg hh]
      simp only [List.flatten_cons, ih]
      have hsplit : (data.reverse.dropWhile (fun b => b ≠ 10)).reverse ++
          (data.reverse.takeWhile (fun b => b ≠ 10)).reverse = data := by
        rw [← List.reverse_append, List.takeWhile_append_dropWhile]
        simp
      rw [← hsplit]
      simp
/-- The part of a block up to its last newline ends with that newline. -/
theorem producer_head_split (data : List Nat)
    (hh : (data.reverse.dropWhile (fun b => b ≠ 10)).reverse ≠ []) :
    ∃ pre, (data.reverse.dropWhile (fun b => b ≠ 10)).reverse = pre ++ [10] := by
  rcases hd : data.reverse.dropWhile (fun b => b ≠ 10) with _ | ⟨y, ys⟩
  · exact absurd (by rw [hd]; rfl) hh
  · have hy : y = 10 := by
      have := dropWhile_head_false _ _ _ hd
      simpa using this
    subst hy
    exact ⟨ys.reverse, by rw [hd]; simp⟩

/-- The carried remainder after a block's last newline contains no newline. -/
theorem producer_tail_no_newline (data : List Nat) :
    10 ∉ (data.reverse.takeWhile (fun b => b ≠ 10)).reverse := by
  intro hmem
  have hmem' : 10 ∈ data.reverse.takeWhile (fun b => b ≠ 10) := by simpa using hmem
  have := List.mem_takeWhile_imp hmem'
  simp at this

/-- A block is its emitted part followed by its carried part. -/
theorem producer_data_split (data : List Nat) :
    data = (data.reverse.dropWhile (fun b => b ≠ 10)).reverse ++
      (data.reverse.takeWhile (fun b => b ≠ 10)).reverse := by
  rw [← List.reverse_append, List.takeWhile_append_dropWhile]
  simp

/-- A block with no emitted part has no newline and is wholly carried. -/
theorem producer_no_newline_block (data : List Nat)
    (hh : (data.reverse.dropWhile (fun b => b ≠ 10)).reverse = []) :
    10 ∉ data ∧ (data.reverse.takeWhile (fun b => b ≠ 10)).reverse = data := by
  have hdropnil : data.reverse.dropWhile (fun b => b ≠ 10) = [] := by
    have := congrArg List.reverse hh
    simpa using this
  constructor
  · intro hmem
    have hall := List.dropWhile_eq_nil_iff.mp hdropnil
    have := hall 10 (by simpa using hmem)
    simp at this
  · have htk := List.takeWhile_append_dropWhile (l := data.reverse) (p := fun b => b ≠ 10)
    rw [hdropnil, List.append_nil] at htk
    rw [htk]
    simp

/-- The lines of the emitted chunks are exactly the lines of the input bytes:
no line is split across two chunks and none is lost. -/
theorem producer_flatMap_segs :
    ∀ (blocks : List (List Nat)) (carry : List Nat), 10 ∉ carry →
      (producer blocks carry).flatMap segs = segs (carry ++ blocks.flatten) := by
  intro blocks
  induction blocks with
  | nil =>
    intro carry hc
    by_cases h : carry = []
    · simp [producer, h, segs, segsAux]
    · simp [producer, h]
  | cons data rest ih =>
    intro carry hc
    simp only [producer]
    by_cases hh : (data.reverse.dropWhile (fun b => b ≠ 10)).reverse = []
    · rw [if_pos hh]
      obtain ⟨hno, htk⟩ := producer_no_newline_block data hh
      have hc' : 10 ∉ carry ++ data := by
        intro hmem
        rcases List.mem_append.mp hmem with h1 | h1
        · exact hc h1
        · exact hno h1
      rw [ih _ hc']
      simp [List.append_assoc]
    · rw [if_neg hh]
      obtain ⟨pre, hpre⟩ := producer_head_split data hh
      have htno := producer_tail_no_newline data
      have hdata := producer_data_split data
      simp only [List.flatMap_cons]
      rw [ih _ htno]
      have hrhs : carry ++ (data :: rest).flatten =
          (carry ++ pre) ++ 10 :: ((data.reverse.takeWhile (fun b => b ≠ 10)).reverse ++
            rest.flatten) := by
        conv_lhs => rw [List.flatten_cons, hdata, hpre]
        simp
      rw [hrhs]
      have hlhs : carry ++ (data.reverse.dropWhile (fun b => b ≠ 10)).reverse =
          (carry ++ pre) ++ [10] := by
        rw [hpre]
        simp
      rw [hlhs]
      rw [segs, segsAux_append_newline]
      rw [show segsAux [] ([] : List Nat) = [] from rfl, List.append_nil]
      conv_rhs => rw [segs, segsAux_append_newline]
      rfl

/-- Every emitted chunk is nonempty. -/
theorem producer_ne_nil :
    ∀ (blocks : List (List Nat)) (carry : List Nat), ∀ c ∈ producer blocks carry, c ≠ [] := by
  intro blocks
  induction blocks with
  | nil =>
    intro carry c hcmem
    by_cases h : carry = []
    · simp [producer, h] at hcmem
    · simp only [producer, if_neg h, List.mem_singleton] at hcmem
      subst hcmem
      exact h
  | cons data rest ih =>
    intro carry c hcmem
    simp only [producer] at hcmem
    by_cases hh : (data.reverse.dropWhile (fun b => b ≠ 10)).reverse = []
    · rw [if_pos hh] at hcmem
      exact ih _ c hcmem
    · rw [if_neg hh] at hcmem
      rcases List.mem_cons.mp hcmem with rfl | hmem
      · intro hcon
        exact hh (List.append_eq_nil.mp hcon).2
      · exact ih _ c hmem

/-- Every chunk except possibly the last ends with a newline byte. -/
theorem producer_dropLast_newline :
    ∀ (blocks : List (List Nat)) (carry : List Nat),
      ∀ c ∈ (producer blocks carry).dropLast, c.getLast? = some 10 := by
  intro blocks
  induction blocks with
  | nil =>
    intro carry c hcmem
    by_cases h : carry = [] <;> simp [producer, h] at hcmem
  | cons data rest ih =>
    intro carry c hcmem
    simp only [producer] at hcmem
    by_cases hh : (data.reverse.dropWhile (fun b => b ≠ 10)).reverse = []
    · rw [if_pos hh] at hcmem
      exact ih _ c hcmem
    · rw [if_neg hh] at hcmem
      rcases hrest : producer rest ((data.reverse.takeWhile (fun b => b ≠ 10)).reverse)
        with _ | ⟨c1, cs⟩
      · rw [hrest] at hcmem
        simp at hcmem
      · rw [hrest, List.dropLast_cons₂] at hcmem
        rcases List.mem_cons.mp hcmem with rfl | hmem
        · obtain ⟨pre, hpre⟩ := producer_head_split data hh
          rw [hpre, ← List.append_assoc]
          exact List.getLast?_concat _
        · rw [← hrest] at hmem
          exact ih _ c hmem

/-- The last chunk either ends with a newline or contains none at all (the
flushed final partial line). -/
theorem producer_getLast :
    ∀ (blocks : List (List Nat)) (carry : List Nat), 10 ∉ carry →
      ∀ c, (producer blocks carry).getLast? = some c → c.getLast? = some 10 ∨ 10 ∉ c := by
  intro blocks
  induction blocks with
  | nil =>
    intro carry hc c h
    by_cases hcc : carry = []
    · simp [producer, hcc] at h
    · simp only [producer, if_neg hcc, List.getLast?_singleton, Option.some.injEq] at h
      subst h
      exact Or.inr hc
  | cons data rest ih =>
    intro carry hc c h
    simp only [producer] at h
    by_cases hh : (data.reverse.dropWhile (fun b => b ≠ 10)).reverse = []
    · rw [if_pos hh] at h
      obtain ⟨hno, -⟩ := producer_no_newline_block data hh
      have hc' : 10 ∉ carry ++ data := by
        intro hmem
        rcases List.mem_append.mp hmem with h1 | h1
        · exact hc h1
        · exact hno h1
      exact ih _ hc' c h
    · rw [if_neg hh] at h
      rcases hrest : producer rest ((data.reverse.takeWhile (fun b => b ≠ 10)).reverse)
        with _ | ⟨c1, cs⟩
      · rw [hrest, List.getLast?_singleton, Option.some.injEq] at h
        subst h
        obtain ⟨pre, hpre⟩ := producer_head_split data hh
        rw [hpre, ← List.append_assoc]
        exact Or.inl (List.getLast?_concat _)
      · rw [hrest, List.getLast?_cons_cons] at h
        exact ih _ (producer_tail_no_newline data) c (by rw [hrest]; exact h)
/-! ### Bucket engine: pass 1 and pass 2 characterization -/

/-- The per-line pass-1 step is the per-address step on the decoded line. -/
theorem pass1Write_eq (files : Nat → List Nat) (seg : List Nat) :
    pass1Write files seg = match addrOfLine seg with
      | some ip => bucketWrite files ip
      | none => files := by
  by_cases h0 : (trimSpace seg).length = 0
  · simp [pass1Write, addrOfLine, h0]
  · cases hp : parseIPv4 (trimSpace seg) with
    | none => simp [pass1Write, addrOfLine, h0, hp]
    | some ip => simp [pass1Write, addrOfLine, bucketWrite, h0, hp]

/-- Folding the per-line step over the segments is folding the per-address
step over the decoded addresses. -/
theorem pass1_foldl :
    ∀ (segsList : List (List Nat)) (files : Nat → List Nat),
      segsList.foldl pass1Write files = (segsList.filterMap addrOfLine).foldl bucketWrite files := by
  intro segsList
  induction segsList with
  | nil => intro files; rfl
  | cons seg rest ih =>
    intro files
    rw [List.foldl_cons, pass1Write_eq]
    cases h : addrOfLine seg with
    | none => simp only [List.filterMap_cons, h]; exact ih files
    | some ip => simp only [List.filterMap_cons, h, List.foldl_cons]; exact ih _

theorem pass1_eq (input : List Nat) : pass1 input = bucketsOfAddrs (addrs input) :=
  pass1_foldl (segs input) files0

/-- Bucket `t` after pass 1 holds exactly the encoded 24-bit suffixes of the
addresses whose top byte is `t`, in input order. -/
theorem bucketsOfAddrs_apply :
    ∀ (l : List Nat) (files : Nat → List Nat) (t : Nat),
      (l.foldl bucketWrite files) t = files t ++
        (l.filter (fun ip => ip >>> 24 = t)).flatMap (fun ip => putUint32BE (ip &&& 0xFFFFFF)) := by
  intro l
  induction l with
  | nil => intro files t; simp
  | cons ip rest ih =>
    intro files t
    rw [List.foldl_cons, ih]
    by_cases ht : ip >>> 24 = t
    · subst ht
      rw [List.filter_cons_of_pos (by simp)]
      simp [bucketWrite, Function.update_same]
    · rw [List.filter_cons_of_neg (by simpa using ht)]
      have : bucketWrite files ip t = files t := by
        unfold bucketWrite
        exact Function.update_noteq (fun h => ht h.symm) _ _
      rw [this]

/-- Pass 2 reads back exactly the suffixes pass 1 wrote into a bucket. -/
theorem readRecords_suffixes :
    ∀ l : List Nat,
      readRecords (l.flatMap (fun ip => putUint32BE (ip &&& 0xFFFFFF))) =
        l.map (fun ip => ip &&& 0xFFFFFF) := by
  intro l
  induction l with
  | nil => rfl
  | cons ip rest ih =>
    rw [List.flatMap_cons, readRecords_put _ (by
      have : ip &&& 0xFFFFFF ≤ 0xFFFFFF := Nat.and_le_right
      omega), ih, List.map_cons]

/-- Pass 2 on any byte content counts the distinct decoded records. -/
theorem countBucketFile_eq (content : List Nat) :
    countBucketFile content = (readRecords content).toFinset.card := by
  unfold countBucketFile
  apply tsFold_card
  intro a b hw hb
  rw [shiftRight_5_eq, shiftRight_5_eq] at hw
  rw [and_31_eq, and_31_eq] at hb
  omega

/-- Summing the per-bucket pass-2 counts over all 256 buckets counts the
distinct addresses, for any address list of 32-bit values. -/
theorem bucketCount_card (l : List Nat) (hl : ∀ ip ∈ l, ip < 2 ^ 32) :
    (∑ t ∈ Finset.range numBuckets, countBucketFile (bucketsOfAddrs l t)) = l.toFinset.card := by
  have hsum : ∀ t, countBucketFile (bucketsOfAddrs l t) =
      ((l.toFinset.filter (fun ip => ip >>> 24 = t)).image (fun ip => ip &&& 0xFFFFFF)).card := by
    intro t
    rw [countBucketFile_eq]
    unfold bucketsOfAddrs
    rw [bucketsOfAddrs_apply l files0 t]
    rw [show files0 t = [] from rfl, List.nil_append]
    rw [readRecords_suffixes]
    congr 1
    ext x
    simp
  have himg : ∀ t,
      ((l.toFinset.filter (fun ip => ip >>> 24 = t)).image (fun ip => ip &&& 0xFFFFFF)).card =
        (l.toFinset.filter (fun ip => ip >>> 24 = t)).card := by
    intro t
    apply Finset.card_image_of_injOn
    intro a ha b hb hab
    have ha' := (Finset.mem_filter.mp ha).2
    have hb' := (Finset.mem_filter.mp hb).2
    have hab' : a &&& 0xFFFFFF = b &&& 0xFFFFFF := hab
    rw [and_mask24_eq, and_mask24_eq] at hab'
    rw [shiftRight_24_eq] at ha' hb'
    omega
  rw [Finset.sum_congr rfl (fun t _ => (hsum t).trans (himg t))]
  refine (Finset.card_eq_sum_card_fiberwise ?_).symm
  intro x hx
  have hx32 : x < 2 ^ 32 := hl x (List.mem_toFinset.mp hx)
  rw [Finset.mem_range, shiftRight_24_eq]
  show x / 2 ^ 24 < numBuckets
  unfold numBuckets
  omega

/-- The disk engine returns the number of distinct parsed addresses. -/
theorem bucket_count_eq (input : List Nat) :
    countUniqueIPsBucket input = (addrs input).toFinset.card := by
  unfold countUniqueIPsBucket
  rw [Finset.sum_congr rfl (fun i _ => by rw [pass1_eq])]
  exact bucketCount_card (addrs input) (fun ip h => addrs_lt h)

/-- Same, as a function of a decoded address list. -/
theorem bucketCountOfAddrs_card (l : List Nat) (hl : ∀ ip ∈ l, ip < 2 ^ 32) :
    bucketCountOfAddrs l = l.toFinset.card :=
  bucketCount_card l hl
/-! ### Concurrent engine: characterization -/

theorem setBit_clear {words : Nat → Nat} {off : Nat}
    (h : words (off / 32) &&& 1 <<< (off % 32) = 0) :
    setBit words off =
      (Function.update words (off / 32) (words (off / 32) ||| 1 <<< (off % 32)), true) := by
  simp [setBit, h]

theorem setBit_set {words : Nat → Nat} {off : Nat}
    (h : words (off / 32) &&& 1 <<< (off % 32) ≠ 0) :
    setBit words off = (words, false) := by
  simp [setBit, h]

theorem addrOfLine_none_cases {seg : List Nat} (h : addrOfLine seg = none) :
    (trimSpace seg).length = 0 ∨ parseIPv4 (trimSpace seg) = none := by
  by_cases h0 : (trimSpace seg).length = 0
  · exact Or.inl h0
  · right
    simpa [addrOfLine, h0] using h

theorem addrOfLine_some_facts {seg : List Nat} {ip : Nat} (h : addrOfLine seg = some ip) :
    (trimSpace seg).length ≠ 0 ∧ parseIPv4 (trimSpace seg) = some ip := by
  by_cases h0 : (trimSpace seg).length = 0
  · simp [addrOfLine, h0] at h
  · exact ⟨h0, by simpa [addrOfLine, h0] using h⟩

theorem processLine_none {st : Nat → Nat → Nat} {seg : List Nat}
    (h : addrOfLine seg = none) : processLine st seg = (st, 0) := by
  rcases addrOfLine_none_cases h with h0 | hp
  · simp [processLine, h0]
  · by_cases h0 : (trimSpace seg).length = 0
    · simp [processLine, h0]
    · simp [processLine, h0, hp]

theorem processLine_some {st : Nat → Nat → Nat} {seg : List Nat} {ip : Nat}
    (h : addrOfLine seg = some ip) :
    processLine st seg =
      (Function.update st (ip % numShards) (setBit (st (ip % numShards)) (ip / numShards)).1,
        if (setBit (st (ip % numShards)) (ip / numShards)).2 then 1 else 0) := by
  obtain ⟨h0, hp⟩ := addrOfLine_some_facts h
  simp [processLine, h0, hp]

/-- The running count is an additive offset of the zero-based count, and the
final state does not depend on the initial count. -/
theorem foldLines_cnt :
    ∀ (ls : List (List Nat)) (st : Nat → Nat → Nat) (cnt : Nat),
      (foldLines st cnt ls).1 = (foldLines st 0 ls).1 ∧
        (foldLines st cnt ls).2 = cnt + (foldLines st 0 ls).2 := by
  intro ls
  induction ls with
  | nil => intro st cnt; simp [foldLines]
  | cons seg rest ih =>
    intro st cnt
    simp only [foldLines]
    obtain ⟨h1, h2⟩ := ih (processLine st seg).1 (cnt + (processLine st seg).2)
    obtain ⟨h1', h2'⟩ := ih (processLine st seg).1 (0 + (processLine st seg).2)
    refine ⟨by rw [h1, h1'], ?_⟩
    rw [h2, h2']
    omega

theorem foldLines_append :
    ∀ (l1 l2 : List (List Nat)) (st : Nat → Nat → Nat) (cnt : Nat),
      foldLines st cnt (l1 ++ l2) =
        foldLines (foldLines st cnt l1).1 (foldLines st cnt l1).2 l2 := by
  intro l1
  induction l1 with
  | nil => intro l2 st cnt; simp [foldLines]
  | cons seg rest ih =>
    intro l2 st cnt
    simp only [List.cons_append, foldLines]
    exact ih l2 _ _

/-- Processing the chunks in sequence is processing all their lines in
sequence. -/
theorem runChunks_eq :
    ∀ (cs : List (List Nat)) (st : Nat → Nat → Nat) (total : Nat),
      runChunks st total cs = foldLines st total (cs.flatMap segs) := by
  intro cs
  induction cs with
  | nil => intro st total; simp [runChunks, foldLines]
  | cons c cs ih =>
    intro st total
    simp only [runChunks, List.flatMap_cons, foldLines_append]
    obtain ⟨h1, h2⟩ := foldLines_cnt (segs c) st total
    rw [ih]
    unfold processChunk
    rw [h1, h2]

/-- The concurrent per-line fold simulates the generic test-and-set fold on
the decoded addresses, with the sharded state viewed as one keyed word array. -/
theorem foldLines_tsFold :
    ∀ (ls : List (List Nat)) (st : Nat → Nat → Nat) (w : Nat × Nat → Nat) (cnt : Nat),
      (∀ s j, st s j = w (s, j)) →
      (foldLines st cnt ls).2 =
        (tsFold shardWordOf shardBitOf (ls.filterMap addrOfLine) w cnt).2 := by
  intro ls
  induction ls with
  | nil => intro st w cnt hst; simp [foldLines, tsFold]
  | cons seg rest ih =>
    intro st w cnt hst
    simp only [foldLines]
    cases h : addrOfLine seg with
    | none =>
      rw [processLine_none h]
      simp only [List.filterMap_cons, h]
      simpa using ih st w cnt hst
    | some ip =>
      rw [processLine_some h]
      simp only [List.filterMap_cons, h]
      have hkey : st (ip % numShards) (ip / numShards / 32) = w (shardWordOf ip) := hst _ _
      by_cases hc : w (shardWordOf ip) &&& 1 <<< shardBitOf ip = 0
      · have hcc : st (ip % numShards) (ip / numShards / 32) &&& 1 <<< (ip / numShards % 32) = 0 := by
          rw [hkey]
          exact hc
        rw [setBit_clear hcc]
        have hstep : tsFold shardWordOf shardBitOf (ip :: rest.filterMap addrOfLine) w cnt =
            tsFold shardWordOf shardBitOf (rest.filterMap addrOfLine)
              (Function.update w (shardWordOf ip) (w (shardWordOf ip) ||| 1 <<< shardBitOf ip))
              (cnt + 1) := by
          simp only [tsFold]
          rw [if_pos hc]
        rw [hstep]
        simp only [if_pos rfl]
        apply ih
        intro s j
        by_cases hs : s = ip % numShards
        · subst hs
          by_cases hj : j = ip / numShards / 32
          · subst hj
            rw [Function.update_same, Function.update_same,
              show ((ip % numShards, ip / numShards / 32) : Nat × Nat) = shardWordOf ip from rfl,
              Function.update_same, hkey]
            rfl
          · rw [Function.update_same, Function.update_noteq hj,
              Function.update_noteq (by simp [shardWordOf, hj]), hst]
        · rw [Function.update_noteq hs,
            Function.update_noteq (by simp [shardWordOf, hs]), hst]
      · have hcc : st (ip % numShards) (ip / numShards / 32) &&& 1 <<< (ip / numShards % 32) ≠ 0 := by
          rw [hkey]
          exact hc
        rw [setBit_set hcc]
        have hstep : tsFold shardWordOf shardBitOf (ip :: rest.filterMap addrOfLine) w cnt =
            tsFold shardWordOf shardBitOf (rest.filterMap addrOfLine) w cnt := by
          simp only [tsFold]
          rw [if_neg hc]
        rw [hstep]
        simp only [if_neg (by simp : ¬False)]
        have : (if false = true then 1 else 0) = 0 := rfl
        rw [this, Nat.add_zero]
        apply ih
        intro s j
        by_cases hs : s = ip % numShards
        · subst hs
          rw [Function.update_same, hst]
        · rw [Function.update_noteq hs, hst]

/-- The shard/word/bit key assignment is injective on addresses. -/
theorem shardKey_inj (a b : Nat) (hw : shardWordOf a = shardWordOf b)
    (hb : shardBitOf a = shardBitOf b) : a = b := by
  unfold shardWordOf at hw
  unfold shardBitOf at hb
  unfold numShards at hw hb
  rw [Prod.mk.injEq] at hw
  obtain ⟨h1, h2⟩ := hw
  have ha1 := Nat.div_add_mod a 16384
  have hb1 := Nat.div_add_mod b 16384
  have ha2 := Nat.div_add_mod (a / 16384) 32
  have hb2 := Nat.div_add_mod (b / 16384) 32
  omega

/-- The concurrent engine returns the number of distinct parsed addresses of
the file, for every block decomposition the reader hands the producer. -/
theorem concurrent_count_eq (blocks : List (List Nat)) :
    countConcurrentBlocks blocks = (addrs blocks.flatten).toFinset.card := by
  unfold countConcurrentBlocks
  rw [runChunks_eq]
  rw [foldLines_tsFold ((producer blocks []).flatMap segs) zeroShards (fun _ => 0) 0
    (fun s j => rfl)]
  rw [producer_flatMap_segs blocks [] (by simp)]
  rw [List.nil_append]
  exact tsFold_card shardWordOf shardBitOf shardKey_inj (addrs blocks.flatten)
theorem range_any_false : (List.range numBuckets).any (fun _ => false) = false := by
  simp

/-- Once the bucket loop has failed, it stays failed (the source returned). -/
theorem pass2Step_foldl_error (ob rb : Nat → Bool) (files : Nat → List Nat) :
    ∀ (l : List Nat) (e : String),
      l.foldl (pass2Step ob rb files) (.error e) = .error e := by
  intro l
  induction l with
  | nil => intro e; rfl
  | cons i l ih =>
    intro e
    rw [List.foldl_cons, show pass2Step ob rb files (.error e) i = .error e from rfl]
    exact ih e

/-- With every open and read succeeding, the bucket loop returns the sum of
the per-bucket counts. -/
theorem pass2Step_foldl_ok (ob rb : Nat → Bool) (files : Nat → List Nat) :
    ∀ (l : List Nat), (∀ i ∈ l, ob i = false ∧ rb i = false) → ∀ (total : Nat),
      l.foldl (pass2Step ob rb files) (.ok total) =
        .ok (total + (l.map (fun i => countBucketFile (files i))).sum) := by
  intro l
  induction l with
  | nil => intro _ total; simp
  | cons i l ih =>
    intro h total
    obtain ⟨hoi, hri⟩ := h i (List.mem_cons_self i l)
    rw [List.foldl_cons,
      show pass2Step ob rb files (.ok total) i = .ok (total + countBucketFile (files i)) from by
        simp [pass2Step, hoi, hri]]
    rw [ih (fun j hj => h j (List.mem_cons_of_mem _ hj)) _]
    simp [Nat.add_assoc]

/-- A failing bucket open (reads all fine) aborts the loop with its wrap. -/
theorem pass2Step_foldl_open_error (ob : Nat → Bool) (files : Nat → List Nat) :
    ∀ (l : List Nat), (∃ i ∈ l, ob i = true) → ∀ (total : Nat),
      l.foldl (pass2Step ob (fun _ => false) files) (.ok total) =
        .error "open bucket" := by
  intro l
  induction l with
  | nil => intro h; exact absurd h (by simp)
  | cons i l ih =>
    intro h total
    by_cases hoi : ob i = true
    · rw [List.foldl_cons,
        show pass2Step ob (fun _ => false) files (.ok total) i = .error "open bucket" from by
          simp [pass2Step, hoi]]
      exact pass2Step_foldl_error _ _ _ l _
    · rw [List.foldl_cons,
        show pass2Step ob (fun _ => false) files (.ok total) i =
          .ok (total + countBucketFile (files i)) from by simp [pass2Step, hoi]]
      obtain ⟨j, hj, hoj⟩ := h
      rcases List.mem_cons.mp hj with rfl | hjl
      · exact absurd hoj hoi
      · exact ih ⟨j, hjl, hoj⟩ _

/-- A failing bucket record read (opens all fine) aborts the loop with its
wrap. -/
theorem pass2Step_foldl_read_error (rb : Nat → Bool) (files : Nat → List Nat) :
    ∀ (l : List Nat), (∃ i ∈ l, rb i = true) → ∀ (total : Nat),
      l.foldl (pass2Step (fun _ => false) rb files) (.ok total) =
        .error "read bucket" := by
  intro l
  induction l with
  | nil => intro h; exact absurd h (by simp)
  | cons i l ih =>
    intro h total
    by_cases hri : rb i = true
    · rw [List.foldl_cons,
        show pass2Step (fun _ => false) rb files (.ok total) i = .error "read bucket" from by
          simp [pass2Step, hri]]
      exact pass2Step_foldl_error _ _ _ l _
    · rw [List.foldl_cons,
        show pass2Step (fun _ => false) rb files (.ok total) i =
          .ok (total + countBucketFile (files i)) from by simp [pass2Step, hri]]
      obtain ⟨j, hj, hrj⟩ := h
      rcases List.mem_cons.mp hj with rfl | hjl
      · exact absurd hrj hri
      · exact ih ⟨j, hjl, hrj⟩ _

/-- Pass 2 of the error model with all opens and reads succeeding. -/
theorem pass2E_ok (ob rb : Nat → Bool) (files : Nat → List Nat)
    (h : ∀ i, ob i = false ∧ rb i = false) :
    pass2E ob rb files =
      .ok (((List.range numBuckets).map (fun i => countBucketFile (files i))).sum) := by
  unfold pass2E
  rw [pass2Step_foldl_ok ob rb files _ (fun i _ => h i) 0, Nat.zero_add]

/-- Pass-2 record reading ignores a trailing group of fewer than 4 bytes. -/
theorem readRecords_append :
    ∀ (l t : List Nat), l.length % 4 = 0 → t.length < 4 → readRecords (l ++ t) = readRecords l
  | [], [], _, _ => rfl
  | [], [a], _, _ => rfl
  | [], [a, b], _, _ => rfl
  | [], [a, b, c], _, _ => rfl
  | [], a :: b :: c :: d :: r, _, ht => by exact absurd ht (by simp)
  | [a], t, h4, _ => by simp at h4
  | [a, b], t, h4, _ => by simp at h4
  | [a, b, c], t, h4, _ => by simp at h4
  | a :: b :: c :: d :: rest, t, h4, ht => by
    simp only [List.cons_append, readRecords]
    rw [show rest.append t = rest ++ t from rfl,
      readRecords_append rest t (by simp at h4; omega) ht]
/-! ## Claims -/

/-- C1: For every input file whose trimmed lines contain `d` distinct
addresses that the Address Codec parses successfully — with arbitrary
duplicate multiplicities and in arbitrary order — the bucket engine's
CountUniqueIPs and the concurrent engine's CountUniqueIPs each return
exactly `d`.  Here `d` is `(addrs input).toFinset.card`, the input is the
concatenation of the reader's blocks, and the concurrent count holds for
every block decomposition. -/
theorem c1_engines_count_distinct (blocks : List (List Nat)) :
    countUniqueIPsBucket blocks.flatten = (addrs blocks.flatten).toFinset.card ∧
      countConcurrentBlocks blocks = (addrs blocks.flatten).toFinset.card :=
  ⟨bucket_count_eq _, concurrent_count_eq _⟩

/-- C2: For every input file (given as the reader's block decomposition),
the concurrent sharded-bitset engine's CountUniqueIPs and the
disk-partitioned bucket engine's CountUniqueIPs return the same count. -/
theorem c2_engines_agree (blocks : List (List Nat)) :
    countConcurrentBlocks blocks = countUniqueIPsBucket blocks.flatten := by
  rw [concurrent_count_eq, bucket_count_eq]

/-- C3: In the disk engine, the partition index (top 8 bits) together with
the stored suffix reconstruct the address exactly: the 4-byte big-endian
encoding of the 24-bit suffix decodes to the same suffix, and
`(top <<< 24) ||| suffix = a`; two addresses with identical low 24 bits but
different top bytes go to different partitions and are both counted, while
two occurrences of one address collapse to one count. -/
theorem c3_partition_reconstruct (a b : Nat) (ha : a < 2 ^ 32) (hb : b < 2 ^ 32)
    (htop : a >>> 24 ≠ b >>> 24) (hsuf : a &&& 0xFFFFFF = b &&& 0xFFFFFF) :
    readRecords (putUint32BE (a &&& 0xFFFFFF)) = [a &&& 0xFFFFFF] ∧
      (a >>> 24) <<< 24 ||| (a &&& 0xFFFFFF) = a ∧
      bucketCountOfAddrs [a, b] = 2 ∧
      bucketCountOfAddrs [a, a] = 1 := by
  have hs : a &&& 0xFFFFFF ≤ 0xFFFFFF := Nat.and_le_right
  have hab : a ≠ b := fun h => htop (h ▸ rfl)
  refine ⟨?_, ?_, ?_, ?_⟩
  · have h := readRecords_put (a &&& 0xFFFFFF) (by omega) []
    simpa using h
  · rw [Nat.shiftLeft_eq, shiftRight_24_eq, and_mask24_eq]
    rw [or_eq_add (i := 24) _ _ (by omega) ⟨a / 2 ^ 24, by ring⟩]
    omega
  · rw [bucketCountOfAddrs_card [a, b] (by
      intro ip hip
      simp only [List.mem_cons, List.not_mem_nil, or_false] at hip
      rcases hip with rfl | rfl
      · exact ha
      · exact hb)]
    rw [show ([a, b] : List Nat).toFinset = insert a {b} from by simp]
    rw [Finset.card_insert_of_not_mem (by simp [hab]), Finset.card_singleton]
  · rw [bucketCountOfAddrs_card [a, a] (by
      intro ip hip
      simp only [List.mem_cons, List.not_mem_nil, or_false] at hip
      rcases hip with rfl | rfl
      · exact ha
      · exact ha)]
    simp

/-- Witness for C3 at the addresses 1.0.0.0 and 2.0.0.0 (tops 1 and 2,
both with suffix 0). -/
theorem c3_partition_reconstruct_witness :
    readRecords (putUint32BE ((16777216 : Nat) &&& 0xFFFFFF)) = [(16777216 : Nat) &&& 0xFFFFFF] ∧
      ((16777216 : Nat) >>> 24) <<< 24 ||| ((16777216 : Nat) &&& 0xFFFFFF) = 16777216 ∧
      bucketCountOfAddrs [16777216, 33554432] = 2 ∧
      bucketCountOfAddrs [16777216, 16777216] = 1 :=
  c3_partition_reconstruct 16777216 33554432 (by norm_num) (by norm_num)
    (by decide) (by decide)

/-- C4: For every input byte sequence (any block decomposition the reader
produces), the chunks the producer emits concatenate in order to exactly the
input bytes; every chunk except possibly the last ends with a newline; the
last chunk ends with a newline or contains none (the flushed final partial
line); no chunk is empty; and the lines of the chunks are exactly the lines
of the input, so no line is split across two chunks. -/
theorem c4_producer_chunks (blocks : List (List Nat)) :
    (producer blocks []).flatten = blocks.flatten ∧
      (∀ c ∈ (producer blocks []).dropLast, c.getLast? = some 10) ∧
      (∀ c ∈ producer blocks [], c ≠ []) ∧
      (∀ c, (producer blocks []).getLast? = some c → c.getLast? = some 10 ∨ 10 ∉ c) ∧
      (producer blocks []).flatMap segs = segs blocks.flatten := by
  refine ⟨?_, producer_dropLast_newline blocks [], producer_ne_nil blocks [],
    producer_getLast blocks [] (by simp), ?_⟩
  · simpa using producer_flatten blocks []
  · simpa using producer_flatMap_segs blocks [] (by simp)

/-- Witness for C4 on the two blocks "1\n2" and "3\n": the emitted chunks are
[1\n] and [2 3\n]. -/
theorem c4_producer_chunks_witness :
    (producer [[49, 10, 50], [51, 10]] []).flatten = [49, 10, 50, 51, 10] ∧
      ([49, 10] : List Nat).getLast? = some 10 ∧
      ([49, 10] : List Nat) ≠ [] ∧
      (([50, 51, 10] : List Nat).getLast? = some 10 ∨ 10 ∉ ([50, 51, 10] : List Nat)) ∧
      (producer [[49, 10, 50], [51, 10]] []).flatMap segs = segs [49, 10, 50, 51, 10] := by
  obtain ⟨h1, h2, h3, h4, h5⟩ := c4_producer_chunks [[49, 10, 50], [51, 10]]
  exact ⟨by simpa using h1, h2 [49, 10] (by decide), h3 [49, 10] (by decide),
    h4 [50, 51, 10] (by decide), by simpa using h5⟩

/-- C5: `setBit` returns false ("not new") exactly when the addressed bit was
already set; after any call the addressed bit is set; no other bit of the
shard changes; and no bit is ever cleared (monotonicity). -/
theorem c5_setBit_spec (words : Nat → Nat) (offset j b : Nat) :
    ((setBit words offset).2 = false ↔ (words (offset / 32)).testBit (offset % 32) = true) ∧
      ((setBit words offset).1 (offset / 32)).testBit (offset % 32) = true ∧
      ((j, b) ≠ (offset / 32, offset % 32) →
        ((setBit words offset).1 j).testBit b = (words j).testBit b) ∧
      ((words j).testBit b = true → ((setBit words offset).1 j).testBit b = true) := by
  by_cases hc : words (offset / 32) &&& 1 <<< (offset % 32) = 0
  · have hbit : (words (offset / 32)).testBit (offset % 32) = false := (and_mask_eq_zero _ _).mp hc
    rw [setBit_clear hc]
    dsimp only
    refine ⟨by simp [hbit], ?_, ?_, ?_⟩
    · rw [Function.update_same, Nat.testBit_or, Nat.shiftLeft_eq, one_mul,
        Nat.testBit_two_pow_self]
      simp
    · intro hne
      by_cases hj : j = offset / 32
      · subst hj
        have hb : b ≠ offset % 32 := fun h => hne (by rw [h])
        rw [Function.update_same, Nat.testBit_or, Nat.shiftLeft_eq, one_mul,
          Nat.testBit_two_pow_of_ne (fun h => hb h.symm)]
        simp
      · rw [Function.update_noteq hj]
    · intro hset
      by_cases hj : j = offset / 32
      · subst hj
        rw [Function.update_same, Nat.testBit_or, hset]
        simp
      · rw [Function.update_noteq hj]
        exact hset
  · have hbit : (words (offset / 32)).testBit (offset % 32) = true := by
      rcases h : (words (offset / 32)).testBit (offset % 32) with _ | _
      · exact absurd ((and_mask_eq_zero _ _).mpr h) hc
      · rfl
    rw [setBit_set hc]
    exact ⟨by simp [hbit], hbit, fun _ => rfl, fun h => h⟩

/-- Witness for C5: on words all `8` (bit 3 set), offset 37 addresses word 1
bit 5; the call reports "new", sets that bit, leaves word 0 bit 3 set. -/
theorem c5_setBit_spec_witness :
    ((setBit sampleWords 37).2 = false ↔ (sampleWords (37 / 32)).testBit (37 % 32) = true) ∧
      ((setBit sampleWords 37).1 (37 / 32)).testBit (37 % 32) = true ∧
      ((setBit sampleWords 37).1 0).testBit 3 = (sampleWords 0).testBit 3 ∧
      ((setBit sampleWords 37).1 0).testBit 3 = true := by
  obtain ⟨h1, h2, h3, h4⟩ := c5_setBit_spec sampleWords 37 0 3
  exact ⟨h1, h2, h3 (by decide), h4 (by decide)⟩

/-- C6: for every 32-bit address, the concurrent engine's in-shard word index
`offset / 32` (offset = address / numShards) is strictly below
`wordsPerShard`, so `s.words[wordIdx]` in `setBit` is always in bounds. -/
theorem c6_word_index_in_bounds (a : Nat) (ha : a < 2 ^ 32) :
    a / numShards / 32 < wordsPerShard := by
  have hw : wordsPerShard = 8192 := by decide
  rw [hw]
  unfold numShards
  rw [Nat.div_div_eq_div_mul]
  omega

/-- Witness for C6 at the largest address. -/
theorem c6_word_index_in_bounds_witness :
    (4294967295 : Nat) < 2 ^ 32 ∧ (4294967295 : Nat) / numShards / 32 < wordsPerShard :=
  ⟨by norm_num, c6_word_index_in_bounds 4294967295 (by norm_num)⟩
/-- C7 counterexample: with every flush failing (and nothing durable), the
disk engine still returns `ok` with a count — the claim says a failed flush
at the end of pass 1 makes the call return an error, but the source discards
the results of `writers[top].Write` and of `Flush` in `flushClose`, so the
call returns a (wrong) count of 0 for the one-address file 1.2.3.4 with no
error. -/
theorem c7_flush_failure_not_fatal :
    countUniqueIPsBucketE false (fun _ => false) false false (fun _ => false) (fun _ => false)
      (fun _ => true) (fun _ => 0) c10Sample = Except.ok 0 := by
  have h0 : countBucketFile ([] : List Nat) = 0 := rfl
  simp only [countUniqueIPsBucketE, range_any_false, Bool.false_eq_true, if_false,
    List.take_zero, if_true]
  rw [pass2E_ok _ _ _ (fun i => ⟨rfl, rfl⟩)]
  simp [h0]

/-- C7 amended: failures to create the temporary directory, create a bucket
file, open the input, read the input, or open or read a bucket in pass 2 are
fatal and return the wrapped error; but the error results of suffix-record
writes and of the end-of-pass-1 flush are discarded, so for every
flush-failure pattern the call still returns `ok`. -/
theorem c7_amended_fatal_errors (ce ob rb ff : Nat → Bool) (d : Nat → Nat) (input : List Nat)
    (hce : (List.range numBuckets).any ce = true)
    (hob : (List.range numBuckets).any ob = true)
    (hrb : (List.range numBuckets).any rb = true) :
    countUniqueIPsBucketE true (fun _ => false) false false (fun _ => false) (fun _ => false)
        ff d input = Except.error "mkdtemp" ∧
      countUniqueIPsBucketE false ce false false (fun _ => false) (fun _ => false)
        ff d input = Except.error "create bucket" ∧
      countUniqueIPsBucketE false (fun _ => false) true false (fun _ => false) (fun _ => false)
        ff d input = Except.error "open input" ∧
      countUniqueIPsBucketE false (fun _ => false) false true (fun _ => false) (fun _ => false)
        ff d input = Except.error "read" ∧
      countUniqueIPsBucketE false (fun _ => false) false false ob (fun _ => false)
        ff d input = Except.error "open bucket" ∧
      countUniqueIPsBucketE false (fun _ => false) false false (fun _ => false) rb
        ff d input = Except.error "read bucket" ∧
      (countUniqueIPsBucketE false (fun _ => false) false false (fun _ => false) (fun _ => false)
        ff d input).isOk = true := by
  refine ⟨rfl, ?_, ?_, ?_, ?_, ?_, ?_⟩
  · simp [countUniqueIPsBucketE, hce]
  · simp [countUniqueIPsBucketE, range_any_false]
  · simp [countUniqueIPsBucketE, range_any_false]
  · simp only [countUniqueIPsBucketE, range_any_false, Bool.false_eq_true, if_false]
    exact pass2Step_foldl_open_error ob _ _ (List.any_eq_true.mp hob) 0
  · simp only [countUniqueIPsBucketE, range_any_false, Bool.false_eq_true, if_false]
    exact pass2Step_foldl_read_error rb _ _ (List.any_eq_true.mp hrb) 0
  · simp only [countUniqueIPsBucketE, range_any_false, Bool.false_eq_true, if_false]
    rw [pass2E_ok _ _ _ (fun i => ⟨rfl, rfl⟩)]
    rfl

/-- Witness for the C7 amended theorem with all-failing create/open/read
oracles and all-failing flushes on the file 1.2.3.4. -/
theorem c7_amended_fatal_errors_witness :
    countUniqueIPsBucketE true (fun _ => false) false false (fun _ => false) (fun _ => false)
        (fun _ => true) (fun _ => 0) c10Sample = Except.error "mkdtemp" ∧
      countUniqueIPsBucketE false (fun _ => true) false false (fun _ => false) (fun _ => false)
        (fun _ => true) (fun _ => 0) c10Sample = Except.error "create bucket" ∧
      countUniqueIPsBucketE false (fun _ => false) true false (fun _ => false) (fun _ => false)
        (fun _ => true) (fun _ => 0) c10Sample = Except.error "open input" ∧
      countUniqueIPsBucketE false (fun _ => false) false true (fun _ => false) (fun _ => false)
        (fun _ => true) (fun _ => 0) c10Sample = Except.error "read" ∧
      countUniqueIPsBucketE false (fun _ => false) false false (fun _ => true) (fun _ => false)
        (fun _ => true) (fun _ => 0) c10Sample = Except.error "open bucket" ∧
      countUniqueIPsBucketE false (fun _ => false) false false (fun _ => false) (fun _ => true)
        (fun _ => true) (fun _ => 0) c10Sample = Except.error "read bucket" ∧
      (countUniqueIPsBucketE false (fun _ => false) false false (fun _ => false) (fun _ => false)
        (fun _ => true) (fun _ => 0) c10Sample).isOk = true := by
  exact c7_amended_fatal_errors (fun _ => true) (fun _ => true) (fun _ => true) (fun _ => true)
    (fun _ => 0) c10Sample (by decide) (by decide) (by decide)

/-- C8: in pass 2, a trailing record of fewer than 4 bytes at the end of a
partition file is treated as end of stream: reading stops, no error (the
count is a total function of the content), and the count accumulated from the
complete records is kept. -/
theorem c8_short_trailing_record (records tail : List Nat) (h4 : records.length % 4 = 0)
    (ht : tail.length < 4) :
    countBucketFile (records ++ tail) = countBucketFile records := by
  unfold countBucketFile
  rw [readRecords_append records tail h4 ht]

/-- Witness for C8: one full record followed by a 2-byte trailing fragment. -/
theorem c8_short_trailing_record_witness :
    ([0, 0, 0, 5] : List Nat).length % 4 = 0 ∧ ([1, 2] : List Nat).length < 4 ∧
      countBucketFile ([0, 0, 0, 5] ++ [1, 2]) = countBucketFile [0, 0, 0, 5] :=
  ⟨by decide, by decide, c8_short_trailing_record [0, 0, 0, 5] [1, 2] (by decide) (by decide)⟩

/-- C9: every trimmed non-empty line the Address Codec fails to parse is
skipped, and blank lines are ignored: a file containing only malformed and
blank lines yields count 0 from both engines, and the disk engine (with all
its checked file operations succeeding) returns `ok 0`, not an error. -/
theorem c9_malformed_blank_skipped (blocks : List (List Nat))
    (h : ∀ seg ∈ segs blocks.flatten,
      trimSpace seg = [] ∨ parseIPv4 (trimSpace seg) = none) :
    countUniqueIPsBucket blocks.flatten = 0 ∧ countConcurrentBlocks blocks = 0 ∧
      countUniqueIPsBucketE false (fun _ => false) false false (fun _ => false) (fun _ => false)
        (fun _ => false) (fun _ => 0) blocks.flatten = Except.ok 0 := by
  have haddr : addrs blocks.flatten = [] := by
    unfold addrs
    rw [List.filterMap_eq_nil_iff]
    intro seg hseg
    rcases h seg hseg with h0 | hp
    · simp [addrOfLine, h0]
    · by_cases h0 : (trimSpace seg).length = 0
      · simp [addrOfLine, h0]
      · simp [addrOfLine, h0, hp]
  have hbucket : countUniqueIPsBucket blocks.flatten = 0 := by
    rw [bucket_count_eq, haddr]
    rfl
  refine ⟨hbucket, ?_, ?_⟩
  · rw [concurrent_count_eq, haddr]
    rfl
  · simp only [countUniqueIPsBucketE, range_any_false, Bool.false_eq_true, if_false]
    rw [pass2E_ok _ _ _ (fun i => ⟨rfl, rfl⟩)]
    have hfiles : ∀ i : Nat, pass1 blocks.flatten i = [] := by
      intro i
      rw [pass1_eq, haddr]
      rfl
    simp [hfiles, show countBucketFile ([] : List Nat) = 0 from rfl]

/-- Witness for C9 on the file with lines abc, a blank line, and
999.999.999.999. -/
theorem c9_malformed_blank_skipped_witness :
    countUniqueIPsBucket c9SampleBlock = 0 ∧ countConcurrentBlocks [c9SampleBlock] = 0 ∧
      countUniqueIPsBucketE false (fun _ => false) false false (fun _ => false) (fun _ => false)
        (fun _ => false) (fun _ => 0) c9SampleBlock = Except.ok 0 := by
  have h := c9_malformed_blank_skipped [c9SampleBlock] (by decide)
  simpa using h

/-- C10: every container index the disk engine computes is in bounds: the
partition index is the top byte (`ip >>> 24 < numBuckets = 256`), every
4-byte record pass 2 decodes from a bucket written in the same call is a
24-bit suffix (`r < 2^24`), and its word index `r >>> 5` is below
`wordsPerSet`, so `bitset[word]` is in bounds. -/
theorem c10_indices_in_bounds (input : List Nat) (ip : Nat) (hip : ip ∈ addrs input)
    (t r : Nat) (hr : r ∈ readRecords (pass1 input t)) :
    ip >>> 24 < numBuckets ∧ r < 2 ^ 24 ∧ r >>> 5 < wordsPerSet := by
  have hip32 := addrs_lt hip
  have hr24 : r < 2 ^ 24 := by
    rw [pass1_eq] at hr
    unfold bucketsOfAddrs at hr
    rw [bucketsOfAddrs_apply, show files0 t = [] from rfl, List.nil_append,
      readRecords_suffixes] at hr
    obtain ⟨ip', hip', rfl⟩ := List.mem_map.mp hr
    have h := Nat.and_le_right (n := ip') (m := 0xFFFFFF)
    omega
  refine ⟨?_, hr24, ?_⟩
  · rw [shiftRight_24_eq]
    unfold numBuckets
    omega
  · rw [shiftRight_5_eq]
    have hws : wordsPerSet = 524288 := by decide
    omega

/-- Witness for C10 on the file 1.2.3.4: the parsed address 16909060 has top
byte 1 and the stored record decodes to suffix 131844. -/
theorem c10_indices_in_bounds_witness :
    (16909060 : Nat) ∈ addrs c10Sample ∧
      (131844 : Nat) ∈ readRecords (pass1 c10Sample 1) ∧
      (16909060 : Nat) >>> 24 < numBuckets ∧ (131844 : Nat) < 2 ^ 24 ∧
      (131844 : Nat) >>> 5 < wordsPerSet := by
  have h := c10_indices_in_bounds c10Sample 16909060 (by decide) 1 131844 (by decide)
  exact ⟨by decide, by decide, h.1, h.2.1, h.2.2⟩
